import Mathlib

/-!
Verification of the PlantDoc object-detection data pipeline.

This file gives a shallow embedding of the repository's data-processing
core (loading/cleaning of class labels, species/disease feature
extraction, integrity validation, class balancing, YOLO export) and
proves or refutes the specified properties against it.

Strings are modelled as lists of characters (`Str`); pandas DataFrames
as lists of `AnnRec` records; the filesystem as explicit maps.
-/

namespace PlantDoc

/-- Strings are modelled as lists of characters. -/
abbrev Str := List Char

/-- Conversion from Lean string literals into the model's string type. -/
def chars (s : String) : Str := s.data

/-! ## Python string primitives used by the pipeline -/

/-- Model of Python's whitespace class (as matched by the regex class \s
and stripped by str.strip). -/
def pyIsSpace (c : Char) : Bool :=
  c = ' ' || c = '\t' || c = '\n' || c = '\x0d' || c = '\x0b' || c = '\x0c'

/-- Model of Python str.strip(): drop leading and trailing whitespace. -/
def pyStrip (s : Str) : Str :=
  ((s.dropWhile pyIsSpace).reverse.dropWhile pyIsSpace).reverse

/-- Word characters in the sense of the regex class \w (ASCII inputs). -/
def isWordChar (c : Char) : Bool := c.isAlphanum || c = '_'

/-- Case-insensitive test that the pattern `p` is a prefix of `s`
(re.IGNORECASE matching of a literal pattern). -/
def matchesCI : Str → Str → Bool
  | [], _ => true
  | _ :: _, [] => false
  | p :: ps, c :: cs => p.toLower = c.toLower && matchesCI ps cs

/-- Case-sensitive test that `m` is a prefix of `s` (Python str.startswith,
used to model the substring operator). -/
def isPrefixOfB : Str → Str → Bool
  | [], _ => true
  | _ :: _, [] => false
  | a :: as, b :: bs => a = b && isPrefixOfB as bs

/-- Model of the Python substring test (m in s). -/
def containsSub (m : Str) : Str → Bool
  | [] => isPrefixOfB m []
  | c :: cs => isPrefixOfB m (c :: cs) || containsSub m cs

/-- Prefix of `s` before the first occurrence of `m`; all of `s` when `m`
does not occur.  Models s.split(m)[0]. -/
def takeBeforeSub (m : Str) : Str → Str
  | [] => []
  | c :: cs => if isPrefixOfB m (c :: cs) then [] else c :: takeBeforeSub m cs

/-- Structural worker for removeAllCI.  The fuel argument is only a
termination device: the wrapper passes the string's length, and every
step consumes at least one character, so the fuel never runs out. -/
def removeAllCIAux (w : Str) : Nat → Str → Str
  | 0, s => s
  | _ + 1, [] => []
  | fuel + 1, c :: cs =>
    if w ≠ [] ∧ matchesCI w (c :: cs) then
      removeAllCIAux w fuel (List.drop (w.length - 1) cs)
    else
      c :: removeAllCIAux w fuel cs

/-- re.sub(pattern, "", s) for a literal pattern `w`, case-insensitive,
no word boundaries: remove every non-overlapping occurrence, scanning
left to right.  Models the removal of "leaf" in clean_class_names. -/
def removeAllCI (w : Str) (s : Str) : Str := removeAllCIAux w s.length s

/-- Left word-boundary test: position follows the start of the string or a
non-word character.  (The interpolated patterns start with a word
character, so the regex \b reduces to this test.) -/
def boundaryL : Option Char → Bool
  | none => true
  | some c => !isWordChar c

/-- Right word-boundary test on the remainder of the string after a match. -/
def boundaryR : Str → Bool
  | [] => true
  | c :: _ => !isWordChar c

/-- Structural worker for removeWordCI, fuelled like removeAllCIAux. -/
def removeWordCIAux (w : Str) : Nat → Option Char → Str → Str
  | 0, _, s => s
  | _ + 1, _, [] => []
  | fuel + 1, prev, c :: cs =>
    if w ≠ [] ∧ matchesCI w (c :: cs) ∧ boundaryL prev ∧
        boundaryR (List.drop w.length (c :: cs)) then
      removeWordCIAux w fuel ((List.take w.length (c :: cs)).getLast?)
        (List.drop (w.length - 1) cs)
    else
      c :: removeWordCIAux w fuel (some c) cs

/-- re.sub(rf"\b{w}\b", "", s, flags=IGNORECASE) for a literal word `w`:
remove every non-overlapping word-bounded occurrence, scanning left to
right.  `prev` is the character of the original string just before the
scan position (none at the start). -/
def removeWordCI (w : Str) (prev : Option Char) (s : Str) : Str :=
  removeWordCIAux w s.length prev s

/-- re.search(rf"\b{w}\b", s, flags=IGNORECASE) succeeds: some
word-bounded, case-insensitive occurrence of `w` exists in `s`. -/
def searchWordCI (w : Str) : Option Char → Str → Bool
  | _, [] => false
  | prev, c :: cs =>
    (w ≠ [] ∧ matchesCI w (c :: cs) ∧ boundaryL prev ∧
        boundaryR (List.drop w.length (c :: cs))) ||
      searchWordCI w (some c) cs

/-- Structural worker for collapseWS, fuelled like removeAllCIAux. -/
def collapseWSAux : Nat → Str → Str
  | 0, s => s
  | _ + 1, [] => []
  | fuel + 1, c :: cs =>
    if pyIsSpace c then ' ' :: collapseWSAux fuel (cs.dropWhile pyIsSpace)
    else c :: collapseWSAux fuel cs

/-- re.sub(r"\s+", " ", s): collapse every maximal run of whitespace to a
single space. -/
def collapseWS (s : Str) : Str := collapseWSAux s.length s

/-- str.replace("_", " ") on every character. -/
def underscoresToSpaces (s : Str) : Str :=
  s.map (fun c => if c = '_' then ' ' else c)

/-- Helper for Python str.title(): the flag records whether the previous
character was alphabetic. -/
def pyTitleAux : Bool → Str → Str
  | _, [] => []
  | prevAlpha, c :: cs =>
    (if c.isAlpha then (if prevAlpha then c.toLower else c.toUpper) else c) ::
      pyTitleAux c.isAlpha cs

/-- Model of Python str.title() on ASCII input: the first letter of every
maximal alphabetic run is uppercased, the rest lowercased. -/
def pyTitle (s : Str) : Str := pyTitleAux false s

/-! ## Data model: one row of the annotation DataFrame -/

/-- One annotation row (one bounding box of one image).  `cls` models the
DataFrame column named "class"; `species`, `disease` and `binary_class`
are the derived columns added by the feature extractor and the binary
pipeline (defaulted before those stages run). -/
structure AnnRec where
  filename : Str
  cls : Str
  xmin : Int := 0
  ymin : Int := 0
  xmax : Int := 0
  ymax : Int := 0
  width : Int := 0
  height : Int := 0
  species : Option Str := none
  disease : Str := []
  binary_class : Int := 0
deriving DecidableEq, Repr, Inhabited

/-! ## DataLoader.clean_class_names -/

/-- DataLoader.clean_class_names applied to one class string: remove
"leaf" case-insensitively, collapse whitespace runs, turn underscores
into spaces, then strip — in exactly that order (so an underscore turned
into a space after the collapse step can leave a double space, as in the
source). -/
def clean_class_names (s : Str) : Str :=
  pyStrip (underscoresToSpaces (collapseWS (removeAllCI (chars "leaf") s)))

/-! ## FeatureExtractor -/

/-- FeatureExtractor.extract_species: return the first species of the
configured list that occurs word-bounded and case-insensitively in the
text, else none. -/
def extract_species (plant_species : List Str) (text : Str) : Option Str :=
  plant_species.find? (fun plant => searchWordCI plant none text)

/-- FeatureExtractor.extract_disease: remove every word-bounded,
case-insensitive occurrence of each species name (stripping after each
removal, as the source does), then title-case the remainder; "healthy"
if nothing remains. -/
def extract_disease (plant_species : List Str) (text : Str) : Str :=
  let t := plant_species.foldl (fun acc plant => pyStrip (removeWordCI plant none acc)) text
  if t = [] then chars "healthy" else pyTitle t

/-- FeatureExtractor.add_features on one record: populate the species and
disease columns from the class column. -/
def add_features (plant_species : List Str) (r : AnnRec) : AnnRec :=
  { r with
    species := extract_species plant_species r.cls
    disease := extract_disease plant_species r.cls }

/-- BinaryPipeline.filter_data on one record:
binary_class = int(disease != "healthy"). -/
def binary_filter_data (r : AnnRec) : AnnRec :=
  { r with binary_class := if r.disease = chars "healthy" then 0 else 1 }

/-- The loading/cleaning and feature-extraction stages of the binary
pipeline applied to one training record, followed by the binary-label
stage. -/
def binary_prep (plant_species : List Str) (r : AnnRec) : AnnRec :=
  binary_filter_data (add_features plant_species { r with cls := clean_class_names r.cls })

/-! ## DataValidator

The filesystem of images is modelled as a map from filename to the
dimensions PIL would report: `none` when the file does not exist. -/

/-- DataValidator.fix_zero_dimensions: rows with zero width or height get
both fields overwritten with the actual on-disk image dimensions when the
image exists; rows whose image is missing are left as they are. -/
def fix_zero_dimensions (store : Str → Option (Int × Int)) (df : List AnnRec) : List AnnRec :=
  df.map (fun r =>
    if r.width = 0 ∨ r.height = 0 then
      match store r.filename with
      | some (w, h) => { r with width := w, height := h }
      | none => r
    else r)

/-- DataValidator.verify_files_exist: keep only rows whose image file
exists. -/
def verify_files_exist (store : Str → Option (Int × Int)) (df : List AnnRec) : List AnnRec :=
  df.filter (fun r => (store r.filename).isSome)

/-- DataValidator.validate_and_fix: dimension repair, then existence
filtering, in that order. -/
def validate_and_fix (store : Str → Option (Int × Int)) (df : List AnnRec) : List AnnRec :=
  verify_files_exist store (fix_zero_dimensions store df)

/-! ## YOLOConverter.convert_bbox_to_yolo -/

/-- YOLOConverter.convert_bbox_to_yolo: normalized center/size
coordinates.  Python's true division of integers is modelled exactly over
the rationals. -/
def convert_bbox_to_yolo (r : AnnRec) : ℚ × ℚ × ℚ × ℚ :=
  (((r.xmin : ℚ) + (r.xmax : ℚ)) / 2 / (r.width : ℚ),
   ((r.ymin : ℚ) + (r.ymax : ℚ)) / 2 / (r.height : ℚ),
   ((r.xmax : ℚ) - (r.xmin : ℚ)) / (r.width : ℚ),
   ((r.ymax : ℚ) - (r.ymin : ℚ)) / (r.height : ℚ))

/-! ## Decimal rendering of naturals (Python str(int) for the duplicate
ordinal) -/

/-- Structural worker for natRepr; the fuel argument only bounds the
recursion depth and is always sufficient in natRepr. -/
def natReprAux : Nat → Nat → Str
  | 0, _ => []
  | fuel + 1, n =>
    if n < 10 then [Nat.digitChar n]
    else natReprAux fuel (n / 10) ++ [Nat.digitChar (n % 10)]

/-- Decimal rendering of a natural number, the model of Python str(k)
for the duplicate ordinal k. -/
def natRepr (n : Nat) : Str := natReprAux (n + 1) n

/-- Numeric value of a digit character. -/
def digitVal (c : Char) : Nat := c.toNat - '0'.toNat

/-- Decimal value of a character list. -/
def strVal (s : Str) : Nat := s.foldl (fun acc c => 10 * acc + digitVal c) 0

theorem digitVal_digitChar {d : Nat} (hd : d < 10) :
    digitVal (Nat.digitChar d) = d := by
  interval_cases d <;> rfl

theorem digitChar_isDigit {d : Nat} (hd : d < 10) :
    (Nat.digitChar d).isDigit = true := by
  interval_cases d <;> rfl

theorem strVal_snoc (a : Str) (c : Char) :
    strVal (a ++ [c]) = 10 * strVal a + digitVal c := by
  unfold strVal
  rw [List.foldl_append]
  rfl

theorem strVal_natReprAux : ∀ fuel n, n < fuel → strVal (natReprAux fuel n) = n := by
  intro fuel
  induction fuel with
  | zero => intro n hn; omega
  | succ fuel ih =>
    intro n hn
    unfold natReprAux
    by_cases h10 : n < 10
    · rw [if_pos h10]
      show 10 * 0 + digitVal (Nat.digitChar n) = n
      rw [digitVal_digitChar h10]
      omega
    · rw [if_neg h10]
      rw [strVal_snoc, ih (n / 10) (by omega), digitVal_digitChar (Nat.mod_lt n (by omega))]
      omega

theorem natRepr_injective {m n : Nat} (h : natRepr m = natRepr n) : m = n := by
  have hm := strVal_natReprAux (m + 1) m (by omega)
  have hn := strVal_natReprAux (n + 1) n (by omega)
  unfold natRepr at h
  rw [h] at hm
  omega

theorem natReprAux_digits : ∀ fuel n c, c ∈ natReprAux fuel n → c.isDigit = true := by
  intro fuel
  induction fuel with
  | zero => intro n c hc; simp [natReprAux] at hc
  | succ fuel ih =>
    intro n c hc
    unfold natReprAux at hc
    by_cases h10 : n < 10
    · rw [if_pos h10] at hc
      rw [List.mem_singleton] at hc
      subst hc
      exact digitChar_isDigit h10
    · rw [if_neg h10] at hc
      rw [List.mem_append] at hc
      rcases hc with hc | hc
      · exact ih _ _ hc
      · rw [List.mem_singleton] at hc
        subst hc
        exact digitChar_isDigit (Nat.mod_lt n (by omega))

theorem natRepr_digits {n : Nat} {c : Char} (hc : c ∈ natRepr n) : c.isDigit = true :=
  natReprAux_digits _ _ _ hc

/-! ## pathlib stem/suffix -/

/-- Model of pathlib's stem/suffix split of a file name: the name splits
at its last dot provided that dot is neither the first nor the last
character; otherwise the whole name is the stem and the suffix is empty.
Working on the reversed name, dropWhile stops exactly at the last dot,
so in the split branch the suffix starts with that dot. -/
def splitExt (s : Str) : Str × Str :=
  if (s.reverse.dropWhile (fun c => c != '.')).tail = [] ∨
      s.reverse.takeWhile (fun c => c != '.') = [] then (s, [])
  else ((s.reverse.dropWhile (fun c => c != '.')).tail.reverse,
        '.' :: (s.reverse.takeWhile (fun c => c != '.')).reverse)

theorem dropWhile_head_false {p : Char → Bool} :
    ∀ (l : Str) (c : Char) (rest : Str), List.dropWhile p l = c :: rest → p c = false := by
  intro l
  induction l with
  | nil => intro c rest h; simp [List.dropWhile] at h
  | cons a as ih =>
    intro c rest h
    rw [List.dropWhile] at h
    rcases hp : p a with _ | _
    · rw [hp] at h
      injection h with h1 _
      subst h1
      exact hp
    · rw [hp] at h
      exact ih c rest h

/-- The stem and suffix recompose to the original name. -/
theorem splitExt_append (s : Str) : (splitExt s).1 ++ (splitExt s).2 = s := by
  unfold splitExt
  by_cases hc : (s.reverse.dropWhile (fun c => c != '.')).tail = [] ∨
      s.reverse.takeWhile (fun c => c != '.') = []
  · rw [if_pos hc]
    simp
  · rw [if_neg hc]
    push_neg at hc
    have hdne : s.reverse.dropWhile (fun c => c != '.') ≠ [] := by
      intro h
      rw [h] at hc
      exact hc.1 rfl
    obtain ⟨c, rest, hcr⟩ := List.exists_cons_of_ne_nil hdne
    have hcdot : c = '.' := by
      have := dropWhile_head_false (p := fun c => c != '.') s.reverse c rest hcr
      simpa using this
    have h1 : s.reverse.takeWhile (fun c => c != '.') ++
        s.reverse.dropWhile (fun c => c != '.') = s.reverse :=
      List.takeWhile_append_dropWhile _ _
    rw [hcr] at h1
    have h2 := congrArg List.reverse h1
    rw [List.reverse_append, List.reverse_reverse, List.reverse_cons] at h2
    subst hcdot
    rw [List.append_assoc, List.singleton_append] at h2
    rw [hcr, List.tail_cons]
    exact h2

/-- The suffix is empty or starts with a dot. -/
theorem splitExt_suffix_shape (s : Str) :
    (splitExt s).2 = [] ∨ (splitExt s).2.head? = some '.' := by
  unfold splitExt
  by_cases hc : (s.reverse.dropWhile (fun c => c != '.')).tail = [] ∨
      s.reverse.takeWhile (fun c => c != '.') = []
  · rw [if_pos hc]
    exact Or.inl rfl
  · rw [if_neg hc]
    exact Or.inr rfl

/-! ## Substring facts used for duplicate-filename reasoning -/

/-- The duplicate marker inserted by the balancer and recognized by the
exporter (the Python literal "_dup"). -/
def dup_marker : Str := ['_', 'd', 'u', 'p']

theorem isPrefixOfB_self_append : ∀ (m t : Str), isPrefixOfB m (m ++ t) = true := by
  intro m
  induction m with
  | nil => intro t; rfl
  | cons a as ih =>
    intro t
    show (a = a && isPrefixOfB as (as ++ t)) = true
    rw [ih t]
    simp

theorem prefix_of_append_eq :
    ∀ {a b x y : Str}, a ++ x = b ++ y → a.length ≤ b.length → isPrefixOfB a b = true := by
  intro a
  induction a with
  | nil => intro b x y _ _; rfl
  | cons c cs ih =>
    intro b x y h hlen
    rcases b with _ | ⟨d, ds⟩
    · simp at hlen
    · rw [List.cons_append, List.cons_append] at h
      injection h with h1 h2
      subst h1
      show (c = c && isPrefixOfB cs ds) = true
      rw [ih h2 (by simpa using hlen)]
      simp

theorem isPrefixOfB_exists :
    ∀ {a b : Str}, isPrefixOfB a b = true → ∃ c, b = a ++ c := by
  intro a
  induction a with
  | nil => intro b _; exact ⟨b, rfl⟩
  | cons c cs ih =>
    intro b h
    rcases b with _ | ⟨d, ds⟩
    · simp [isPrefixOfB] at h
    · have h' : (c = d && isPrefixOfB cs ds) = true := h
      rw [Bool.and_eq_true] at h'
      obtain ⟨h1, h2⟩ := h'
      obtain ⟨e, he⟩ := ih h2
      have : c = d := by simpa using h1
      subst this
      exact ⟨e, by rw [List.cons_append, he]⟩

theorem contains_of_isPrefixOfB {m s : Str} (h : isPrefixOfB m s = true) :
    containsSub m s = true := by
  rcases s with _ | ⟨c, cs⟩
  · exact h
  · show (isPrefixOfB m (c :: cs) || containsSub m cs) = true
    rw [h]
    simp

theorem isPrefixOfB_append_mono :
    ∀ {m s : Str} (t : Str), isPrefixOfB m s = true → isPrefixOfB m (s ++ t) = true := by
  intro m
  induction m with
  | nil => intro s t _; rfl
  | cons a as ih =>
    intro s t h
    rcases s with _ | ⟨c, cs⟩
    · simp [isPrefixOfB] at h
    · have h' : (a = c && isPrefixOfB as cs) = true := h
      rw [Bool.and_eq_true] at h'
      obtain ⟨h1, h2⟩ := h'
      rw [List.cons_append]
      show (a = c && isPrefixOfB as (cs ++ t)) = true
      rw [ih t h2, h1]
      simp

theorem containsSub_append_left :
    ∀ {m s : Str} (t : Str), containsSub m s = true → containsSub m (s ++ t) = true := by
  intro m s
  induction s with
  | nil =>
    intro t h
    have hm : m = [] := by
      rcases m with _ | _
      · rfl
      · simp [containsSub, isPrefixOfB] at h
    subst hm
    rcases t with _ | _ <;> simp [containsSub, isPrefixOfB]
  | cons c cs ih =>
    intro t h
    have h' : (isPrefixOfB m (c :: cs) || containsSub m cs) = true := h
    rw [Bool.or_eq_true] at h'
    rw [List.cons_append]
    show (isPrefixOfB m (c :: (cs ++ t)) || containsSub m (cs ++ t)) = true
    rcases h' with h' | h'
    · rw [show c :: (cs ++ t) = (c :: cs) ++ t from rfl, isPrefixOfB_append_mono t h']
      simp
    · rw [ih t h']
      simp

theorem containsSub_append_right :
    ∀ {m : Str} (s : Str) {t : Str}, containsSub m t = true → containsSub m (s ++ t) = true := by
  intro m s
  induction s with
  | nil => intro t h; exact h
  | cons c cs ih =>
    intro t h
    rw [List.cons_append]
    show (isPrefixOfB m (c :: (cs ++ t)) || containsSub m (cs ++ t)) = true
    rw [ih h]
    simp

/-- The marker occurs in any string of the shape a ++ marker ++ b. -/
theorem containsSub_mid (m a b : Str) : containsSub m (a ++ (m ++ b)) = true :=
  containsSub_append_right a (contains_of_isPrefixOfB (isPrefixOfB_self_append m b))

theorem stem_contains_false {m f : Str} (h : containsSub m f = false) :
    containsSub m (splitExt f).1 = false := by
  rcases hb : containsSub m (splitExt f).1 with _ | _
  · rfl
  · exfalso
    have := containsSub_append_left (splitExt f).2 hb
    rw [splitExt_append] at this
    rw [this] at h
    exact Bool.true_eq_false.mp h

theorem suffix_contains_false {m f : Str} (h : containsSub m f = false) :
    containsSub m (splitExt f).2 = false := by
  rcases hb : containsSub m (splitExt f).2 with _ | _
  · rfl
  · exfalso
    have := containsSub_append_right (m := m) (splitExt f).1 hb
    rw [splitExt_append] at this
    rw [this] at h
    exact Bool.true_eq_false.mp h

/-- Auxiliary direction of marker_append_inj: with the marker absent from
`b` and `a` at most as long as `b`, the two decompositions around the
marker coincide on the left. -/
theorem marker_append_inj_aux :
    ∀ (a b x y : Str), containsSub dup_marker b = false →
      a ++ (dup_marker ++ x) = b ++ (dup_marker ++ y) → a.length ≤ b.length → a = b := by
  intro a b x y hb h hlen
  obtain ⟨c, rfl⟩ := isPrefixOfB_exists (prefix_of_append_eq h hlen)
  rw [List.append_assoc] at h
  have h2 : dup_marker ++ x = c ++ (dup_marker ++ y) := by
    exact List.append_cancel_left h
  rcases c with _ | ⟨c1, cs⟩
  · simp
  exfalso
  by_cases h4 : 4 ≤ (c1 :: cs).length
  · have hmc : isPrefixOfB dup_marker (c1 :: cs) = true :=
      prefix_of_append_eq h2 h4
    have : containsSub dup_marker (a ++ c1 :: cs) = true :=
      containsSub_append_right a (contains_of_isPrefixOfB hmc)
    rw [this] at hb
    exact Bool.true_eq_false.mp hb
  · push_neg at h4
    have h2' : '_' :: 'd' :: 'u' :: 'p' :: x =
        (c1 :: cs) ++ ('_' :: 'd' :: 'u' :: 'p' :: y) := h2
    rcases cs with _ | ⟨c2, cs2⟩
    · rw [List.cons_append, List.nil_append] at h2'
      injection h2' with e1 h2''
      injection h2'' with e2 _
      exact absurd e2 (by decide)
    rcases cs2 with _ | ⟨c3, cs3⟩
    · simp only [List.cons_append, List.nil_append] at h2'
      injection h2' with e1 h2''
      injection h2'' with e2 h2''
      injection h2'' with e3 _
      exact absurd e3 (by decide)
    rcases cs3 with _ | ⟨c4, cs4⟩
    · simp only [List.cons_append, List.nil_append] at h2'
      injection h2' with e1 h2''
      injection h2'' with e2 h2''
      injection h2'' with e3 h2''
      injection h2'' with e4 _
      exact absurd e4 (by decide)
    · simp only [List.length_cons] at h4
      omega

/-- If the marker is absent from `a` and `b`, a string can be read in only
one way as stem ++ marker ++ rest. -/
theorem marker_append_inj {a b x y : Str}
    (ha : containsSub dup_marker a = false) (hb : containsSub dup_marker b = false)
    (h : a ++ (dup_marker ++ x) = b ++ (dup_marker ++ y)) : a = b ∧ x = y := by
  have hab : a = b := by
    rcases Nat.le_total a.length b.length with hle | hle
    · exact marker_append_inj_aux a b x y hb h hle
    · exact (marker_append_inj_aux b a y x ha h.symm hle).symm
  subst hab
  refine ⟨rfl, ?_⟩
  have h2 : dup_marker ++ x = dup_marker ++ y := List.append_cancel_left h
  exact List.append_cancel_left h2

/-- A decimal rendering followed by a pathlib suffix determines the
rendered number and the suffix. -/
theorem repr_append_inj_aux :
    ∀ (k1 k2 : Nat) (s1 s2 : Str),
      (s1 = [] ∨ s1.head? = some '.') →
      natRepr k1 ++ s1 = natRepr k2 ++ s2 →
      (natRepr k1).length ≤ (natRepr k2).length → k1 = k2 ∧ s1 = s2 := by
  intro k1 k2 s1 s2 hs1 h hlen
  obtain ⟨e, he⟩ := isPrefixOfB_exists (prefix_of_append_eq h hlen)
  rcases e with _ | ⟨d, e'⟩
  · rw [List.append_nil] at he
    have hk : k1 = k2 := natRepr_injective he.symm
    subst hk
    exact ⟨rfl, List.append_cancel_left h⟩
  · exfalso
    have hd : d ∈ natRepr k2 := by
      rw [he]
      exact List.mem_append_right _ (List.mem_cons_self d e')
    have hdig : d.isDigit = true := natRepr_digits hd
    rw [he, List.append_assoc] at h
    have hs : s1 = (d :: e') ++ s2 := List.append_cancel_left h
    rcases hs1 with hs1 | hs1
    · rw [hs1] at hs
      simp at hs
    · rw [hs] at hs1
      simp only [List.cons_append, List.head?_cons, Option.some.injEq] at hs1
      rw [hs1] at hdig
      exact absurd hdig (by decide)

theorem repr_append_inj {k1 k2 : Nat} {s1 s2 : Str}
    (hs1 : s1 = [] ∨ s1.head? = some '.') (hs2 : s2 = [] ∨ s2.head? = some '.')
    (h : natRepr k1 ++ s1 = natRepr k2 ++ s2) : k1 = k2 ∧ s1 = s2 := by
  rcases Nat.le_total (natRepr k1).length (natRepr k2).length with hle | hle
  · exact repr_append_inj_aux k1 k2 s1 s2 hs1 h hle
  · obtain ⟨hk, hs⟩ := repr_append_inj_aux k2 k1 s2 s1 hs2 h.symm hle
    exact ⟨hk.symm, hs.symm⟩

/-! ## Claims C1 and C10 -/

/-- C1 (counterexample): the claim says a training record with raw class
text "Tomato healthy" ends up with disease "healthy" and binary_class 0.
On the code, the residual text after species removal is "healthy", which
is non-empty, so extract_disease title-cases it to "Healthy"; since
"Healthy" differs from the sentinel "healthy", binary_class becomes 1. -/
theorem C1_end_to_end_counterexample :
    (binary_prep [chars "Tomato"]
        { filename := chars "img.jpg", cls := chars "Tomato healthy" }).disease ≠
        chars "healthy" ∧
    (binary_prep [chars "Tomato"]
        { filename := chars "img.jpg", cls := chars "Tomato healthy" }).binary_class ≠ 0 := by
  constructor <;> decide

/-- C1 (amended): with species list ["Tomato"], a training record with raw
class text "Tomato_leaf Blight" gets disease "Blight" and binary_class 1,
and a training record with raw class text "Tomato healthy" gets disease
"Healthy" (the non-empty residual text title-cased) and binary_class 1,
because "Healthy" is not the literal sentinel "healthy". -/
theorem C1_end_to_end_amended :
    (binary_prep [chars "Tomato"]
        { filename := chars "img.jpg", cls := chars "Tomato_leaf Blight" }).disease =
        chars "Blight" ∧
    (binary_prep [chars "Tomato"]
        { filename := chars "img.jpg", cls := chars "Tomato_leaf Blight" }).binary_class = 1 ∧
    (binary_prep [chars "Tomato"]
        { filename := chars "img.jpg", cls := chars "Tomato healthy" }).disease =
        chars "Healthy" ∧
    (binary_prep [chars "Tomato"]
        { filename := chars "img.jpg", cls := chars "Tomato healthy" }).binary_class = 1 := by
  refine ⟨?_, ?_, ?_, ?_⟩ <;> decide

/-- C10: extract_species never returns the matched substring as it is
spelled in the record text: its result is either none or one of the
configured species strings themselves (canonical casing).  The concrete
conjunct shows a fully uppercased occurrence still yielding the list
entry "Tomato". -/
theorem C10_extract_species_canonical :
    (∀ (plant_species : List Str) (text : Str),
        extract_species plant_species text = none ∨
        ∃ p, extract_species plant_species text = some p ∧ p ∈ plant_species) ∧
    extract_species [chars "Tomato"] (chars "TOMATO two spotted spider mites leaf") =
      some (chars "Tomato") := by
  constructor
  · intro plant_species text
    rcases h : extract_species plant_species text with _ | p
    · exact Or.inl rfl
    · exact Or.inr ⟨p, rfl, List.mem_of_find?_eq_some h⟩
  · decide

/-! ## DataBalancer.balance_by_column

A pandas groupby(column) is modelled by the sorted list of distinct
non-null column values (pandas sorts group keys and drops null keys) and,
per key, the sublist of rows carrying that key, in their original order.
The column accessor returns an Option so that a null entry (the species
column can be NaN) is representable. -/

/-- The duplicate's rewritten filename:
f"{stem}_dup{duplicates_added}{suffix}". -/
def dup_name (r : AnnRec) (k : Nat) : Str :=
  (splitExt r.filename).1 ++ (dup_marker ++ (natRepr k ++ (splitExt r.filename).2))

/-- The synthetic duplicate record: a copy of the replayed source row with
only the filename rewritten. -/
def rewrite_filename (r : AnnRec) (k : Nat) : AnnRec :=
  { r with filename := dup_name r k }

/-- The rows of one groupby group: the rows whose column value is the
key, in original order. -/
def group_of {α : Type} [DecidableEq α] (col : AnnRec → Option α) (df : List AnnRec)
    (c : α) : List AnnRec :=
  df.filter (fun r => decide (col r = some c))

/-- The groupby keys: distinct non-null column values in ascending
order. -/
def group_keys {α : Type} [LinearOrder α] (col : AnnRec → Option α) (df : List AnnRec) :
    List α :=
  List.insertionSort (· ≤ ·) (df.filterMap col).dedup

/-- The duplicates appended for one under-represented class: ordinals
k = 0 .. m-1, source row index k mod n (cyclic replay). -/
def dup_records (g : List AnnRec) (m : Nat) : List AnnRec :=
  (List.range m).map (fun k => rewrite_filename (g.getD (k % g.length) default) k)

/-- The output rows for one class: originals plus duplicates when the
class is under target; all originals (keep_above_target) or the first
target rows (downsampling) otherwise. -/
def balanced_group (g : List AnnRec) (target : Nat) (keep_above_target : Bool) :
    List AnnRec :=
  if g.length < target then g ++ dup_records g (target - g.length)
  else if keep_above_target then g
  else g.take target

/-- DataBalancer.balance_by_column: per-class balanced groups,
concatenated in key order. -/
def balance_by_column {α : Type} [LinearOrder α] (col : AnnRec → Option α)
    (df : List AnnRec) (target_samples_per_class : Nat) (keep_above_target : Bool) :
    List AnnRec :=
  ((group_keys col df).map
    (fun c => balanced_group (group_of col df c) target_samples_per_class keep_above_target)).flatten

/-- BinaryPipeline.balance_data with the interactive choice injected: the
user either chooses a target (some t) or keeps the natural distribution
(none).  The test split is always passed through as a copy. -/
def binary_balance_data (decision : Option Nat) (df_train df_test : List AnnRec) :
    List AnnRec × List AnnRec :=
  match decision with
  | some target_samples =>
    (balance_by_column (fun r => some r.binary_class) df_train target_samples true, df_test)
  | none => (df_train, df_test)

/-- SpeciesPipeline.balance_data, on the species column. -/
def species_balance_data (decision : Option Nat) (df_train df_test : List AnnRec) :
    List AnnRec × List AnnRec :=
  match decision with
  | some target_samples =>
    (balance_by_column (fun r => r.species) df_train target_samples true, df_test)
  | none => (df_train, df_test)

/-- DiseasePipeline.balance_data, on the disease column. -/
def disease_balance_data (decision : Option Nat) (df_train df_test : List AnnRec) :
    List AnnRec × List AnnRec :=
  match decision with
  | some target_samples =>
    (balance_by_column (fun r => some r.disease) df_train target_samples true, df_test)
  | none => (df_train, df_test)

theorem mem_group_of {α : Type} [DecidableEq α] {col : AnnRec → Option α}
    {df : List AnnRec} {c : α} {r : AnnRec} :
    r ∈ group_of col df c ↔ r ∈ df ∧ col r = some c := by
  simp [group_of]

theorem group_keys_nodup {α : Type} [LinearOrder α] (col : AnnRec → Option α)
    (df : List AnnRec) : (group_keys col df).Nodup :=
  (List.perm_insertionSort _ _).nodup_iff.mpr (List.nodup_dedup _)

theorem mem_group_keys {α : Type} [LinearOrder α] {col : AnnRec → Option α}
    {df : List AnnRec} {c : α} :
    c ∈ group_keys col df ↔ ∃ r ∈ df, col r = some c := by
  unfold group_keys
  rw [(List.perm_insertionSort _ _).mem_iff, List.mem_dedup, List.mem_filterMap]

theorem group_of_ne_nil_iff {α : Type} [LinearOrder α] {col : AnnRec → Option α}
    {df : List AnnRec} {c : α} :
    group_of col df c ≠ [] ↔ c ∈ group_keys col df := by
  rw [mem_group_keys]
  constructor
  · intro h
    obtain ⟨r, hr⟩ := List.exists_mem_of_ne_nil _ h
    exact ⟨r, (mem_group_of.mp hr).1, (mem_group_of.mp hr).2⟩
  · rintro ⟨r, hrdf, hrc⟩ hnil
    have : r ∈ group_of col df c := mem_group_of.mpr ⟨hrdf, hrc⟩
    rw [hnil] at this
    exact List.not_mem_nil r this

/-- Every row of a class's balanced group carries that class's column
value, provided the rewritten filename does not affect the column. -/
theorem balanced_group_col {α : Type} [LinearOrder α] {col : AnnRec → Option α}
    (hcol : ∀ r k, col (rewrite_filename r k) = col r)
    {df : List AnnRec} {c : α} {T : Nat} {keep : Bool} {r : AnnRec}
    (hne : group_of col df c ≠ [])
    (hr : r ∈ balanced_group (group_of col df c) T keep) : col r = some c := by
  unfold balanced_group at hr
  by_cases hlt : (group_of col df c).length < T
  · rw [if_pos hlt] at hr
    rw [List.mem_append] at hr
    rcases hr with hr | hr
    · exact (mem_group_of.mp hr).2
    · unfold dup_records at hr
      rw [List.mem_map] at hr
      obtain ⟨k, _, hk⟩ := hr
      subst hk
      rw [hcol]
      have hlen : 0 < (group_of col df c).length := List.length_pos.mpr hne
      have hidx : k % (group_of col df c).length < (group_of col df c).length :=
        Nat.mod_lt _ hlen
      rw [List.getD_eq_getElem _ _ hidx]
      exact (mem_group_of.mp (List.getElem_mem _)).2
  · rw [if_neg hlt] at hr
    rcases hkeep : keep with _ | _
    · rw [hkeep] at hr
      simp only [Bool.false_eq_true, if_false] at hr
      exact (mem_group_of.mp (List.mem_of_mem_take hr)).2
    · rw [hkeep] at hr
      simp only [if_true] at hr
      exact (mem_group_of.mp hr).2

/-- Filtering the concatenation of per-key chunks for one key yields that
key's chunk (or nothing when the key is absent). -/
theorem filter_flatten_pure {α : Type} [DecidableEq α] (col : AnnRec → Option α) (c : α) :
    ∀ (keys : List α) (f : α → List AnnRec), keys.Nodup →
      (∀ k ∈ keys, ∀ r ∈ f k, col r = some k) →
      ((keys.map f).flatten).filter (fun r => decide (col r = some c)) =
        if c ∈ keys then f c else [] := by
  intro keys
  induction keys with
  | nil => intro f _ _; simp
  | cons k ks ih =>
    intro f hnd hp
    rw [List.map_cons, List.flatten_cons, List.filter_append]
    rw [List.nodup_cons] at hnd
    by_cases hck : c = k
    · subst hck
      rw [ih f hnd.2 (fun k' hk' => hp k' (List.mem_cons_of_mem _ hk')), if_neg hnd.1,
        if_pos (List.mem_cons_self _ _), List.append_nil]
      exact List.filter_eq_self.mpr
        (fun r hr => decide_eq_true (hp c (List.mem_cons_self _ _) r hr))
    · rw [ih f hnd.2 (fun k' hk' => hp k' (List.mem_cons_of_mem _ hk'))]
      have h1 : (f k).filter (fun r => decide (col r = some c)) = [] := by
        rw [List.filter_eq_nil_iff]
        intro r hr
        have := hp k (List.mem_cons_self _ _) r hr
        simp only [this, decide_eq_true_eq, Option.some.injEq]
        exact fun h => hck h.symm
      rw [h1, List.nil_append]
      have hmem : (c ∈ k :: ks) ↔ (c ∈ ks) := by
        simp [List.mem_cons, hck]
      by_cases hcks : c ∈ ks
      · rw [if_pos hcks, if_pos (hmem.mpr hcks)]
      · rw [if_neg hcks, if_neg (fun h => hcks (hmem.mp h))]

/-- The rows of one class in the balancer's output are exactly that
class's balanced group. -/
theorem balance_filter_char {α : Type} [LinearOrder α] (col : AnnRec → Option α)
    (hcol : ∀ r k, col (rewrite_filename r k) = col r)
    (df : List AnnRec) (T : Nat) (keep : Bool) (c : α) :
    (balance_by_column col df T keep).filter (fun r => decide (col r = some c)) =
      if c ∈ group_keys col df then balanced_group (group_of col df c) T keep else [] := by
  unfold balance_by_column
  exact filter_flatten_pure col c (group_keys col df) _ (group_keys_nodup col df)
    (fun k hk r hr => balanced_group_col hcol (group_of_ne_nil_iff.mpr hk) hr)

/-- Two duplicate filenames built from marker-free sources agree only on
equal ordinals. -/
theorem dup_name_inj {r1 r2 : AnnRec} {k1 k2 : Nat}
    (h1 : containsSub dup_marker r1.filename = false)
    (h2 : containsSub dup_marker r2.filename = false)
    (h : dup_name r1 k1 = dup_name r2 k2) : k1 = k2 := by
  unfold dup_name at h
  obtain ⟨_, hrest⟩ :=
    marker_append_inj (stem_contains_false h1) (stem_contains_false h2) h
  exact (repr_append_inj (splitExt_suffix_shape r1.filename)
    (splitExt_suffix_shape r2.filename) hrest).1

/-! ## Claim C3 -/

/-- C3 (counterexample): the claim asserts the synthetic filenames are
distinct from the originals, unconditionally.  With originals "a.jpg" and
"a_dup0.jpg" in the same class and target 3, the single duplicate replays
"a.jpg" with ordinal 0 and is named "a_dup0.jpg" — a collision with the
second original, so the output filenames are not pairwise distinct. -/
theorem C3_duplication_counterexample :
    (balance_by_column (fun r => some r.cls)
        [{ filename := chars "a.jpg", cls := chars "G" },
         { filename := chars "a_dup0.jpg", cls := chars "G" }] 3 true).map
      (fun r => r.filename) =
      [chars "a.jpg", chars "a_dup0.jpg", chars "a_dup0.jpg"] ∧
    ¬ ((balance_by_column (fun r => some r.cls)
        [{ filename := chars "a.jpg", cls := chars "G" },
         { filename := chars "a_dup0.jpg", cls := chars "G" }] 3 true).map
      (fun r => r.filename)).Nodup := by
  constructor <;> decide

/-- C3 (amended): for a class with 0 < n < T records, the balancer
returns exactly the n originals (unchanged, in order) followed by T - n
synthetic duplicates; duplicate k replays source row k mod n and renames
it to stem ++ "_dup" ++ k ++ suffix; all duplicate filenames are pairwise
distinct and distinct from the originals PROVIDED no original filename of
the class contains the substring "_dup" (the spec itself flags such
filenames as a known fragility); every field other than the filename of a
duplicate equals the replayed source row. -/
theorem C3_duplication {α : Type} [LinearOrder α] (col : AnnRec → Option α)
    (hcol : ∀ r k, col (rewrite_filename r k) = col r)
    (df : List AnnRec) (c : α) (T : Nat)
    (hne : group_of col df c ≠ [])
    (hlt : (group_of col df c).length < T)
    (hdup : ∀ r ∈ group_of col df c, containsSub dup_marker r.filename = false) :
    (balance_by_column col df T true).filter (fun r => decide (col r = some c)) =
        group_of col df c ++
          dup_records (group_of col df c) (T - (group_of col df c).length) ∧
    ((balance_by_column col df T true).filter (fun r => decide (col r = some c))).length
        = T ∧
    (dup_records (group_of col df c) (T - (group_of col df c).length)).map
        (fun r => r.filename) =
      (List.range (T - (group_of col df c).length)).map (fun k =>
        dup_name ((group_of col df c).getD (k % (group_of col df c).length) default) k) ∧
    ((dup_records (group_of col df c) (T - (group_of col df c).length)).map
        (fun r => r.filename)).Nodup ∧
    (∀ fn ∈ (dup_records (group_of col df c) (T - (group_of col df c).length)).map
        (fun r => r.filename),
      fn ∉ (group_of col df c).map (fun r => r.filename)) ∧
    (∀ r : AnnRec, ∀ k : Nat,
      { rewrite_filename r k with filename := r.filename } = r) := by
  have hchar := balance_filter_char col hcol df T true c
  rw [if_pos (group_of_ne_nil_iff.mp hne)] at hchar
  have hlen : 0 < (group_of col df c).length := List.length_pos.mpr hne
  have hsrc_mem : ∀ k : Nat,
      (group_of col df c).getD (k % (group_of col df c).length) default ∈
        group_of col df c := by
    intro k
    have hidx : k % (group_of col df c).length < (group_of col df c).length :=
      Nat.mod_lt _ hlen
    rw [List.getD_eq_getElem _ _ hidx]
    exact List.getElem_mem _
  refine ⟨?_, ?_, ?_, ?_, ?_, ?_⟩
  · rw [hchar]
    unfold balanced_group
    rw [if_pos hlt]
  · rw [hchar]
    unfold balanced_group
    rw [if_pos hlt, List.length_append]
    unfold dup_records
    rw [List.length_map, List.length_range]
    omega
  · unfold dup_records
    rw [List.map_map]
    rfl
  · unfold dup_records
    rw [List.map_map]
    refine List.Nodup.map_on ?_ (List.nodup_range _)
    intro k1 _ k2 _ hk
    exact dup_name_inj (hdup _ (hsrc_mem k1)) (hdup _ (hsrc_mem k2)) hk
  · intro fn hfn hfn'
    unfold dup_records at hfn
    rw [List.map_map, List.mem_map] at hfn
    obtain ⟨k, _, hk⟩ := hfn
    rw [List.mem_map] at hfn'
    obtain ⟨r, hr, hrfn⟩ := hfn'
    have hfalse := hdup r hr
    rw [hrfn] at hfalse
    rw [← hk] at hfalse
    simp only [Function.comp_apply, rewrite_filename, dup_name] at hfalse
    rw [containsSub_mid] at hfalse
    exact Bool.true_eq_false.mp hfalse
  · intro r k
    rfl

/-- Example record for the C3 witness. -/
def exDupRec : AnnRec := { filename := chars "img.jpg", cls := chars "G" }

/-- Witness for C3 at a concrete one-record class balanced to target 2. -/
theorem C3_duplication_witness :
    ((balance_by_column (fun r => some r.cls) [exDupRec] 2 true).filter
      (fun r => decide (some r.cls = some (chars "G")))).length = 2 :=
  (C3_duplication (fun r => some r.cls) (fun r k => rfl) [exDupRec] (chars "G") 2
    (by decide) (by decide) (by decide)).2.1

/-! ## Claim C4 -/

/-- C4: a class whose record count is at least the target is returned
unchanged (same records, hence same count and filenames) under the
default keep-above-target policy, and the evaluation split passes through
every pipeline variant's balance stage unchanged whether or not balancing
was chosen. -/
theorem C4_balance_frame {α : Type} [LinearOrder α] (col : AnnRec → Option α)
    (hcol : ∀ r k, col (rewrite_filename r k) = col r)
    (df : List AnnRec) (c : α) (T : Nat)
    (hge : T ≤ (group_of col df c).length) :
    (balance_by_column col df T true).filter (fun r => decide (col r = some c)) =
        group_of col df c ∧
    (∀ (decision : Option Nat) (tr te : List AnnRec),
      (binary_balance_data decision tr te).2 = te) ∧
    (∀ (decision : Option Nat) (tr te : List AnnRec),
      (species_balance_data decision tr te).2 = te) ∧
    (∀ (decision : Option Nat) (tr te : List AnnRec),
      (disease_balance_data decision tr te).2 = te) := by
  refine ⟨?_, ?_, ?_, ?_⟩
  · rw [balance_filter_char col hcol df T true c]
    by_cases hmem : c ∈ group_keys col df
    · rw [if_pos hmem]
      unfold balanced_group
      rw [if_neg (not_lt.mpr hge), if_pos rfl]
    · rw [if_neg hmem]
      have : group_of col df c = [] := by
        by_contra hne
        exact hmem (group_of_ne_nil_iff.mp hne)
      rw [this]
  · intro decision tr te; cases decision <;> rfl
  · intro decision tr te; cases decision <;> rfl
  · intro decision tr te; cases decision <;> rfl

/-- Example record for the C4 witness. -/
def exKeepRec : AnnRec := { filename := chars "keep.jpg", cls := chars "K" }

/-- Witness for C4 at a concrete one-record class with target 1. -/
theorem C4_balance_frame_witness :
    (balance_by_column (fun r => some r.binary_class) [exKeepRec] 1 true).filter
        (fun r => decide ((some r.binary_class : Option Int) = some 0)) =
      group_of (fun r => some r.binary_class) [exKeepRec] (0 : Int) :=
  (C4_balance_frame (fun r => some r.binary_class) (fun r k => rfl) [exKeepRec] 0 1
    (by decide)).1

/-! ## YOLOConverter.export_to_yolo

The export stage's filesystem effects are modelled explicitly: the list
of copied destination image filenames, and an association list from label
filename to the label lines written (open(..., "w") truncates, so writing
replaces any previous entry with the same name).  One label line is the
class index paired with the converted box.  A per-group Python exception
(KeyError on the class mapping, ZeroDivisionError on a zero dimension)
aborts the group's label lines where it strikes, after the image copy and
the label-file creation, and the group counts as skipped. -/

/-- One written label line: class index and converted box. -/
abbrev LabelLine := Nat × (ℚ × ℚ × ℚ × ℚ)

instance : DecidableEq (Str × List LabelLine) := instDecidableEqProd

structure ExportState where
  images : List Str
  labels : List (Str × List LabelLine)
  exported : Nat
  skipped : Nat
deriving DecidableEq, Repr

/-- The label file of a group: Path(filename).stem + ".txt". -/
def label_name (f : Str) : Str := (splitExt f).1 ++ chars ".txt"

/-- Resolution of the source image: a filename containing "_dup" is split
at the first occurrence and the extension re-appended
(filename.split("_dup")[0] + Path(filename).suffix). -/
def src_name (f : Str) : Str :=
  if containsSub dup_marker f then takeBeforeSub dup_marker f ++ (splitExt f).2 else f

/-- Write the group's label lines row by row.  The Boolean records
whether all rows were written: a class value missing from the mapping
(KeyError) or a zero dimension (ZeroDivisionError in the bbox division)
stops the loop, leaving the lines written so far. -/
def write_rows {α : Type} (mapping : α → Option Nat) (col : AnnRec → α) :
    List AnnRec → List LabelLine × Bool
  | [] => ([], true)
  | r :: rs =>
    match mapping (col r) with
    | none => ([], false)
    | some idx =>
      if r.width = 0 ∨ r.height = 0 then ([], false)
      else
        ((idx, convert_bbox_to_yolo r) :: (write_rows mapping col rs).1,
          (write_rows mapping col rs).2)

/-- Replace any previous file of the same name, then record the write. -/
def upsert (l : List (Str × List LabelLine)) (k : Str) (v : List LabelLine) :
    List (Str × List LabelLine) :=
  l.filter (fun p => decide (p.1 ≠ k)) ++ [(k, v)]

/-- Processing of one filename group: skip when the resolved source image
is missing; otherwise copy the image, create the label file, and write
the rows; a row failure leaves both files and counts the group as
skipped. -/
def process_group {α : Type} (srcFs : Str → Bool) (mapping : α → Option Nat)
    (col : AnnRec → α) (st : ExportState) (f : Str) (g : List AnnRec) : ExportState :=
  if srcFs (src_name f) = false then { st with skipped := st.skipped + 1 }
  else
    { images := st.images ++ [f],
      labels := upsert st.labels (label_name f) (write_rows mapping col g).1,
      exported := if (write_rows mapping col g).2 then st.exported + 1 else st.exported,
      skipped := if (write_rows mapping col g).2 then st.skipped else st.skipped + 1 }

/-- Lexicographic comparison of strings by code point, the order pandas
sorts group keys in. -/
def strLe : Str → Str → Bool
  | [], _ => true
  | _ :: _, [] => false
  | a :: as, b :: bs => if a = b then strLe as bs else decide (a < b)

/-- The distinct filenames of the frame, in ascending order: the groupby
keys of export_to_yolo. -/
def sorted_filenames (df : List AnnRec) : List Str :=
  List.insertionSort (fun a b => strLe a b = true) (df.map (fun r => r.filename)).dedup

/-- One iteration of the export loop: the group of a filename is the
sublist of rows carrying it. -/
def export_step {α : Type} (srcFs : Str → Bool) (mapping : α → Option Nat)
    (col : AnnRec → α) (df : List AnnRec) (st : ExportState) (f : Str) : ExportState :=
  process_group srcFs mapping col st f (df.filter (fun r => decide (r.filename = f)))

/-- YOLOConverter.export_to_yolo: process the filename groups in key
order, starting from empty output directories and zero counters. -/
def export_to_yolo {α : Type} (srcFs : Str → Bool) (mapping : α → Option Nat)
    (col : AnnRec → α) (df : List AnnRec) : ExportState :=
  (sorted_filenames df).foldl (export_step srcFs mapping col df) ⟨[], [], 0, 0⟩

/-! ## YOLOConverter.create_class_mapping and BasePipeline.export_data -/

/-- The distinct values of the label column, sorted ascending:
sorted(df[column].unique()). -/
def class_list {α : Type} [LinearOrder α] (df : List AnnRec) (col : AnnRec → α) : List α :=
  List.insertionSort (· ≤ ·) (df.map col).dedup

/-- Pairing of a list with consecutive indices from n:
the enumerate underlying the mapping comprehension. -/
def withIdx {α : Type} : Nat → List α → List (α × Nat)
  | _, [] => []
  | n, c :: cs => (c, n) :: withIdx (n + 1) cs

/-- YOLOConverter.create_class_mapping: class value to dense index,
values sorted ascending. -/
def create_class_mapping {α : Type} [LinearOrder α] (df : List AnnRec)
    (col : AnnRec → α) : List (α × Nat) :=
  withIdx 0 (class_list df col)

/-- Python dict access on the mapping: none models a KeyError. -/
def dict_get {α : Type} [DecidableEq α] : List (α × Nat) → α → Option Nat
  | [], _ => none
  | (k, v) :: rest, c => if c = k then some v else dict_get rest c

/-- BasePipeline.export_data: one class mapping is created from the
processed training split and that same mapping is passed to both export
calls (train and eval). -/
def export_data {α : Type} [LinearOrder α] (col : AnnRec → α)
    (df_train_p df_test_p : List AnnRec) (trainFs testFs : Str → Bool) :
    ExportState × ExportState :=
  (export_to_yolo trainFs (dict_get (create_class_mapping df_train_p col)) col df_train_p,
   export_to_yolo testFs (dict_get (create_class_mapping df_train_p col)) col df_test_p)

/-! ## Behaviour of the export loop -/

/-- A group is fully exported when its source image exists and every row
passes the class lookup and the bbox division. -/
def group_ok {α : Type} (srcFs : Str → Bool) (mapping : α → Option Nat)
    (col : AnnRec → α) (df : List AnnRec) (f : Str) : Bool :=
  srcFs (src_name f) && (write_rows mapping col (df.filter (fun r => decide (r.filename = f)))).2

theorem mem_sorted_filenames {df : List AnnRec} {f : Str} :
    f ∈ sorted_filenames df ↔ ∃ r ∈ df, r.filename = f := by
  unfold sorted_filenames
  rw [(List.perm_insertionSort _ _).mem_iff, List.mem_dedup, List.mem_map]

theorem sum_foldl {α : Type} (srcFs : Str → Bool) (mapping : α → Option Nat)
    (col : AnnRec → α) (df : List AnnRec) :
    ∀ (fs : List Str) (st : ExportState),
      (fs.foldl (export_step srcFs mapping col df) st).exported +
        (fs.foldl (export_step srcFs mapping col df) st).skipped =
      st.exported + st.skipped + fs.length := by
  intro fs
  induction fs with
  | nil => intro st; simp
  | cons g gs ih =>
    intro st
    rw [List.foldl_cons, ih]
    have hstep : (export_step srcFs mapping col df st g).exported +
        (export_step srcFs mapping col df st g).skipped =
        st.exported + st.skipped + 1 := by
      unfold export_step process_group
      by_cases hsrc : srcFs (src_name g) = false
      · rw [if_pos hsrc]
        show st.exported + (st.skipped + 1) = st.exported + st.skipped + 1
        omega
      · rw [if_neg hsrc]
        rcases h2 : (write_rows mapping col
            (df.filter (fun r => decide (r.filename = g)))).2 with _ | _
        · simp [h2]
          omega
        · simp [h2]
          omega
    rw [hstep]
    simp only [List.length_cons]
    omega

theorem exported_foldl {α : Type} (srcFs : Str → Bool) (mapping : α → Option Nat)
    (col : AnnRec → α) (df : List AnnRec) :
    ∀ (fs : List Str) (st : ExportState),
      (fs.foldl (export_step srcFs mapping col df) st).exported =
        st.exported + fs.countP (group_ok srcFs mapping col df) := by
  intro fs
  induction fs with
  | nil => intro st; simp
  | cons g gs ih =>
    intro st
    rw [List.foldl_cons, ih, List.countP_cons]
    have hstep : (export_step srcFs mapping col df st g).exported =
        st.exported + (if group_ok srcFs mapping col df g then 1 else 0) := by
      unfold export_step process_group group_ok
      by_cases hsrc : srcFs (src_name g) = false
      · rw [if_pos hsrc, hsrc]
        simp
      · rw [if_neg hsrc]
        have hok : srcFs (src_name g) = true := by
          rcases h : srcFs (src_name g) with _ | _
          · exact absurd h hsrc
          · rfl
        rcases h2 : (write_rows mapping col
            (df.filter (fun r => decide (r.filename = g)))).2 with _ | _
        · simp [hok, h2]
        · simp [hok, h2]
    rw [hstep]
    omega

theorem skipped_foldl {α : Type} (srcFs : Str → Bool) (mapping : α → Option Nat)
    (col : AnnRec → α) (df : List AnnRec) :
    ∀ (fs : List Str) (st : ExportState),
      (fs.foldl (export_step srcFs mapping col df) st).skipped =
        st.skipped + fs.countP (fun f => !group_ok srcFs mapping col df f) := by
  intro fs
  induction fs with
  | nil => intro st; simp
  | cons g gs ih =>
    intro st
    rw [List.foldl_cons, ih, List.countP_cons]
    have hstep : (export_step srcFs mapping col df st g).skipped =
        st.skipped + (if !group_ok srcFs mapping col df g then 1 else 0) := by
      unfold export_step process_group group_ok
      by_cases hsrc : srcFs (src_name g) = false
      · rw [if_pos hsrc, hsrc]
        simp
      · rw [if_neg hsrc]
        have hok : srcFs (src_name g) = true := by
          rcases h : srcFs (src_name g) with _ | _
          · exact absurd h hsrc
          · rfl
        rcases h2 : (write_rows mapping col
            (df.filter (fun r => decide (r.filename = g)))).2 with _ | _
        · simp [hok, h2]
        · simp [hok, h2]
    rw [hstep]
    omega

theorem images_foldl {α : Type} (srcFs : Str → Bool) (mapping : α → Option Nat)
    (col : AnnRec → α) (df : List AnnRec) :
    ∀ (fs : List Str) (st : ExportState) (f : Str),
      f ∈ (fs.foldl (export_step srcFs mapping col df) st).images ↔
        f ∈ st.images ∨ (f ∈ fs ∧ srcFs (src_name f) = true) := by
  intro fs
  induction fs with
  | nil => intro st f; simp
  | cons g gs ih =>
    intro st f
    rw [List.foldl_cons, ih]
    unfold export_step process_group
    by_cases hsrc : srcFs (src_name g) = false
    · rw [if_pos hsrc]
      constructor
      · rintro (h | h)
        · exact Or.inl h
        · exact Or.inr ⟨List.mem_cons_of_mem _ h.1, h.2⟩
      · rintro (h | ⟨hmem, hokf⟩)
        · exact Or.inl h
        · rcases List.mem_cons.mp hmem with rfl | hmem'
          · rw [hokf] at hsrc
            exact absurd hsrc (by simp)
          · exact Or.inr ⟨hmem', hokf⟩
    · rw [if_neg hsrc]
      have hok : srcFs (src_name g) = true := by
        rcases h : srcFs (src_name g) with _ | _
        · exact absurd h hsrc
        · rfl
      simp only [List.mem_append, List.mem_singleton]
      constructor
      · rintro ((h | rfl) | ⟨hmem, hokf⟩)
        · exact Or.inl h
        · exact Or.inr ⟨List.mem_cons_self _ _, hok⟩
        · exact Or.inr ⟨List.mem_cons_of_mem _ hmem, hokf⟩
      · rintro (h | ⟨hmem, hokf⟩)
        · exact Or.inl (Or.inl h)
        · rcases List.mem_cons.mp hmem with rfl | hmem'
          · exact Or.inl (Or.inr rfl)
          · exact Or.inr ⟨hmem', hokf⟩

theorem upsert_keys_mem {l : List (Str × List LabelLine)} {k k' : Str}
    {v : List LabelLine} :
    k ∈ (upsert l k' v).map (fun p => p.1) ↔ k = k' ∨ k ∈ l.map (fun p => p.1) := by
  unfold upsert
  rw [List.map_append, List.mem_append]
  simp only [List.map_cons, List.map_nil, List.mem_singleton, List.mem_map,
    List.mem_filter]
  constructor
  · rintro (⟨p, ⟨hp, hne⟩, hk⟩ | hk)
    · exact Or.inr ⟨p, hp, hk⟩
    · exact Or.inl hk
  · rintro (hk | ⟨p, hp, hk⟩)
    · exact Or.inr hk
    · by_cases hkk : k = k'
      · exact Or.inr hkk
      · refine Or.inl ⟨p, ⟨hp, ?_⟩, hk⟩
        simp only [decide_eq_true_eq]
        rw [hk]
        exact hkk

theorem labels_foldl {α : Type} (srcFs : Str → Bool) (mapping : α → Option Nat)
    (col : AnnRec → α) (df : List AnnRec) :
    ∀ (fs : List Str) (st : ExportState) (k : Str),
      k ∈ (fs.foldl (export_step srcFs mapping col df) st).labels.map (fun p => p.1) ↔
        k ∈ st.labels.map (fun p => p.1) ∨
          ∃ g ∈ fs, srcFs (src_name g) = true ∧ k = label_name g := by
  intro fs
  induction fs with
  | nil => intro st k; simp
  | cons g gs ih =>
    intro st k
    rw [List.foldl_cons, ih]
    unfold export_step process_group
    by_cases hsrc : srcFs (src_name g) = false
    · rw [if_pos hsrc]
      constructor
      · rintro (h | ⟨g', hg', hok, hk⟩)
        · exact Or.inl h
        · exact Or.inr ⟨g', List.mem_cons_of_mem _ hg', hok, hk⟩
      · rintro (h | ⟨g', hg', hok, hk⟩)
        · exact Or.inl h
        · rcases List.mem_cons.mp hg' with rfl | hg''
          · rw [hok] at hsrc
            exact absurd hsrc (by simp)
          · exact Or.inr ⟨g', hg'', hok, hk⟩
    · rw [if_neg hsrc]
      have hok : srcFs (src_name g) = true := by
        rcases h : srcFs (src_name g) with _ | _
        · exact absurd h hsrc
        · rfl
      rw [upsert_keys_mem]
      constructor
      · rintro ((rfl | h) | ⟨g', hg', hokg, hk⟩)
        · exact Or.inr ⟨g, List.mem_cons_self _ _, hok, rfl⟩
        · exact Or.inl h
        · exact Or.inr ⟨g', List.mem_cons_of_mem _ hg', hokg, hk⟩
      · rintro (h | ⟨g', hg', hokg, hk⟩)
        · exact Or.inl (Or.inr h)
        · rcases List.mem_cons.mp hg' with rfl | hg''
          · exact Or.inl (Or.inl hk)
          · exact Or.inr ⟨g', hg'', hokg, hk⟩

theorem write_rows_false {α : Type} (mapping : α → Option Nat) (col : AnnRec → α) :
    ∀ (g : List AnnRec) (r : AnnRec), r ∈ g → mapping (col r) = none →
      (write_rows mapping col g).2 = false := by
  intro g
  induction g with
  | nil => intro r hr; exact absurd hr (List.not_mem_nil r)
  | cons a rs ih =>
    intro r hr hmap
    unfold write_rows
    rcases hm : mapping (col a) with _ | idx
    · rfl
    · rcases List.mem_cons.mp hr with rfl | hr'
      · rw [hm] at hmap
        exact absurd hmap (by simp)
      · show (if a.width = 0 ∨ a.height = 0 then (([] : List LabelLine), false)
            else ((idx, convert_bbox_to_yolo a) :: (write_rows mapping col rs).1,
              (write_rows mapping col rs).2)).2 = false
        by_cases hz : a.width = 0 ∨ a.height = 0
        · rw [if_pos hz]
        · rw [if_neg hz]
          exact ih r hr' hmap

/-! ## Claim C8 -/

theorem export_counts_sum {α : Type} (srcFs : Str → Bool) (mapping : α → Option Nat)
    (col : AnnRec → α) (df : List AnnRec) :
    (export_to_yolo srcFs mapping col df).exported +
      (export_to_yolo srcFs mapping col df).skipped =
      (df.map (fun r => r.filename)).toFinset.card := by
  unfold export_to_yolo
  rw [sum_foldl]
  show 0 + 0 + (sorted_filenames df).length = _
  unfold sorted_filenames
  rw [(List.perm_insertionSort _ _).length_eq, List.card_toFinset]
  omega

/-- C8: export returns counts whose sum is the number of distinct
filenames of the input: every filename group is counted exactly once,
either as exported or as skipped. -/
theorem C8_export_counts {α : Type} (srcFs : Str → Bool) (mapping : α → Option Nat)
    (col : AnnRec → α) (df : List AnnRec) :
    (export_to_yolo srcFs mapping col df).exported +
      (export_to_yolo srcFs mapping col df).skipped =
      (df.map (fun r => r.filename)).toFinset.card :=
  export_counts_sum srcFs mapping col df

/-! ## Claim C2 -/

/-- C2 (counterexample): the claim's per-group copy-iff-label property
fails when two distinct filenames share a stem: with "a.jpg" (source
present) and "a.png" (source missing), the group "a.png" is skipped and
its image is not copied, yet its label file "a.txt" exists — written by
the group "a.jpg". -/
theorem C2_export_atomicity_counterexample :
    ¬ ((chars "a.png" ∈
        (export_to_yolo (fun f => decide (f = chars "a.jpg")) (fun _ => some 0)
          (fun r => r.cls)
          [{ filename := chars "a.jpg", cls := chars "G", width := 1, height := 1 },
           { filename := chars "a.png", cls := chars "G", width := 1, height := 1 }]).images) ↔
      (label_name (chars "a.png") ∈
        ((export_to_yolo (fun f => decide (f = chars "a.jpg")) (fun _ => some 0)
          (fun r => r.cls)
          [{ filename := chars "a.jpg", cls := chars "G", width := 1, height := 1 },
           { filename := chars "a.png", cls := chars "G", width := 1, height := 1 }]).labels).map
          (fun p => p.1))) := by
  decide

/-- C2 (amended): provided no two distinct filenames of the input share a
pathlib stem, a group's destination image is copied if and only if the
group's label file is written (created), including when a per-group
exception is raised mid-group: the copy and the label-file creation
happen together before any row can fail, and a mid-group failure (unknown
class, zero dimension) leaves both the copied image and the created
(possibly partially written) label file while the group counts as
skipped. -/
theorem C2_export_atomicity {α : Type} (srcFs : Str → Bool) (mapping : α → Option Nat)
    (col : AnnRec → α) (df : List AnnRec)
    (hstem : ∀ r1 ∈ df, ∀ r2 ∈ df,
      (splitExt r1.filename).1 = (splitExt r2.filename).1 → r1.filename = r2.filename) :
    ∀ f ∈ sorted_filenames df,
      (f ∈ (export_to_yolo srcFs mapping col df).images ↔
        label_name f ∈ (export_to_yolo srcFs mapping col df).labels.map (fun p => p.1)) := by
  intro f hf
  unfold export_to_yolo
  rw [images_foldl, labels_foldl]
  simp only [show (⟨[], [], 0, 0⟩ : ExportState).images = [] from rfl,
    show (⟨[], [], 0, 0⟩ : ExportState).labels = [] from rfl,
    List.map_nil, List.not_mem_nil, false_or]
  constructor
  · rintro ⟨hmem, hok⟩
    exact ⟨f, hmem, hok, rfl⟩
  · rintro ⟨g, hg, hok, hlab⟩
    unfold label_name at hlab
    have hstems : (splitExt f).1 = (splitExt g).1 := List.append_cancel_right hlab
    obtain ⟨r1, hr1, hr1f⟩ := mem_sorted_filenames.mp hf
    obtain ⟨r2, hr2, hr2f⟩ := mem_sorted_filenames.mp hg
    have hfg : f = g := by
      rw [← hr1f, ← hr2f]
      refine hstem r1 hr1 r2 hr2 ?_
      rw [hr1f, hr2f]
      exact hstems
    subst hfg
    exact ⟨hf, hok⟩

/-- Witness for C2 at a one-group input whose source image exists. -/
theorem C2_export_atomicity_witness :
    (chars "w.jpg" ∈
      (export_to_yolo (fun _ => true) (fun _ => some 0) (fun r => r.cls)
        [{ filename := chars "w.jpg", cls := chars "G", width := 1, height := 1 }]).images) ↔
    (label_name (chars "w.jpg") ∈
      ((export_to_yolo (fun _ => true) (fun _ => some 0) (fun r => r.cls)
        [{ filename := chars "w.jpg", cls := chars "G", width := 1, height := 1 }]).labels).map
        (fun p => p.1)) :=
  C2_export_atomicity (fun _ => true) (fun _ => some 0) (fun r => r.cls)
    [{ filename := chars "w.jpg", cls := chars "G", width := 1, height := 1 }]
    (by decide) (chars "w.jpg") (by decide)

/-! ## Claim C7 -/

/-- C7 (counterexample): an unknown class during export does not abort
the run.  With group "a.jpg" holding an unmapped class and group "b.jpg"
a mapped one, the run completes: the bad group is absorbed as a per-group
skip (after its image copy and label-file creation) and the good group is
still exported. -/
theorem C7_unknown_class_counterexample :
    (export_to_yolo (fun _ => true)
        (fun c => if c = chars "Good" then some 0 else none) (fun r => r.cls)
        [{ filename := chars "a.jpg", cls := chars "X", width := 1, height := 1 },
         { filename := chars "b.jpg", cls := chars "Good", width := 1, height := 1 }]).exported
        = 1 ∧
    (export_to_yolo (fun _ => true)
        (fun c => if c = chars "Good" then some 0 else none) (fun r => r.cls)
        [{ filename := chars "a.jpg", cls := chars "X", width := 1, height := 1 },
         { filename := chars "b.jpg", cls := chars "Good", width := 1, height := 1 }]).skipped
        = 1 ∧
    chars "a.jpg" ∈ (export_to_yolo (fun _ => true)
        (fun c => if c = chars "Good" then some 0 else none) (fun r => r.cls)
        [{ filename := chars "a.jpg", cls := chars "X", width := 1, height := 1 },
         { filename := chars "b.jpg", cls := chars "Good", width := 1, height := 1 }]).images ∧
    chars "b.jpg" ∈ (export_to_yolo (fun _ => true)
        (fun c => if c = chars "Good" then some 0 else none) (fun r => r.cls)
        [{ filename := chars "a.jpg", cls := chars "X", width := 1, height := 1 },
         { filename := chars "b.jpg", cls := chars "Good", width := 1, height := 1 }]).images := by
  refine ⟨?_, ?_, ?_, ?_⟩ <;> decide

/-- C7 (amended): a class value absent from the mapping during export is
caught by the per-group exception handler, not fatal: the group's image
is already copied and its label file created, the group is counted as
skipped, and the run still accounts for every group (exported + skipped =
number of distinct filenames). -/
theorem C7_unknown_class_skips {α : Type} (srcFs : Str → Bool)
    (mapping : α → Option Nat) (col : AnnRec → α) (df : List AnnRec)
    (f : Str) (r : AnnRec)
    (hf : f ∈ sorted_filenames df)
    (hsrc : srcFs (src_name f) = true)
    (hr : r ∈ df.filter (fun r' => decide (r'.filename = f)))
    (hmap : mapping (col r) = none) :
    f ∈ (export_to_yolo srcFs mapping col df).images ∧
    label_name f ∈ (export_to_yolo srcFs mapping col df).labels.map (fun p => p.1) ∧
    1 ≤ (export_to_yolo srcFs mapping col df).skipped ∧
    (export_to_yolo srcFs mapping col df).exported +
      (export_to_yolo srcFs mapping col df).skipped =
      (df.map (fun r' => r'.filename)).toFinset.card := by
  refine ⟨?_, ?_, ?_, ?_⟩
  · unfold export_to_yolo
    rw [images_foldl]
    exact Or.inr ⟨hf, hsrc⟩
  · unfold export_to_yolo
    rw [labels_foldl]
    exact Or.inr ⟨f, hf, hsrc, rfl⟩
  · unfold export_to_yolo
    rw [skipped_foldl]
    have hbad : (!group_ok srcFs mapping col df f) = true := by
      unfold group_ok
      rw [write_rows_false mapping col _ r hr hmap]
      simp
    have : 0 < (sorted_filenames df).countP (fun g => !group_ok srcFs mapping col df g) :=
      List.countP_pos_iff.mpr ⟨f, hf, hbad⟩
    omega
  · exact export_counts_sum srcFs mapping col df

/-- Example bad-class record for the C7 witness. -/
def exBadRec : AnnRec := { filename := chars "bad.jpg", cls := chars "X", width := 1, height := 1 }

/-- Witness for C7 at a one-group input with an unmapped class. -/
theorem C7_unknown_class_skips_witness :
    chars "bad.jpg" ∈
      (export_to_yolo (fun _ => true) (fun _ => (none : Option Nat)) (fun r => r.cls)
        [exBadRec]).images ∧
    label_name (chars "bad.jpg") ∈
      ((export_to_yolo (fun _ => true) (fun _ => (none : Option Nat)) (fun r => r.cls)
        [exBadRec]).labels).map (fun p => p.1) ∧
    1 ≤ (export_to_yolo (fun _ => true) (fun _ => (none : Option Nat)) (fun r => r.cls)
        [exBadRec]).skipped ∧
    (export_to_yolo (fun _ => true) (fun _ => (none : Option Nat)) (fun r => r.cls)
        [exBadRec]).exported +
      (export_to_yolo (fun _ => true) (fun _ => (none : Option Nat)) (fun r => r.cls)
        [exBadRec]).skipped =
      (([exBadRec] : List AnnRec).map (fun r' => r'.filename)).toFinset.card :=
  C7_unknown_class_skips (fun _ => true) (fun _ => none) (fun r => r.cls) [exBadRec]
    (chars "bad.jpg") exBadRec (by decide) rfl (by decide) rfl

/-! ## Claim C5 -/

theorem dict_get_withIdx_bounds {α : Type} [DecidableEq α] :
    ∀ (s : List α) (n : Nat) (c : α) (i : Nat),
      dict_get (withIdx n s) c = some i → n ≤ i ∧ i < n + s.length := by
  intro s
  induction s with
  | nil => intro n c i h; simp [withIdx, dict_get] at h
  | cons a as ih =>
    intro n c i h
    unfold withIdx dict_get at h
    by_cases hc : c = a
    · rw [if_pos hc] at h
      injection h with h
      subst h
      simp only [List.length_cons]
      omega
    · rw [if_neg hc] at h
      have := ih (n + 1) c i h
      simp only [List.length_cons]
      omega

theorem dict_get_withIdx_mem {α : Type} [DecidableEq α] :
    ∀ (s : List α) (n : Nat) (c : α), c ∈ s →
      ∃ i, dict_get (withIdx n s) c = some i ∧ i < n + s.length := by
  intro s
  induction s with
  | nil => intro n c hc; exact absurd hc (List.not_mem_nil c)
  | cons a as ih =>
    intro n c hc
    unfold withIdx dict_get
    by_cases hca : c = a
    · refine ⟨n, by rw [if_pos hca], ?_⟩
      simp only [List.length_cons]
      omega
    · rw [if_neg hca]
      rcases List.mem_cons.mp hc with rfl | hc'
      · exact absurd rfl hca
      · obtain ⟨i, hg, hb⟩ := ih (n + 1) c hc'
        refine ⟨i, hg, ?_⟩
        simp only [List.length_cons]
        omega

theorem dict_get_withIdx_surj {α : Type} [DecidableEq α] :
    ∀ (s : List α) (n : Nat) (i : Nat), s.Nodup → i < s.length →
      ∃ c ∈ s, dict_get (withIdx n s) c = some (n + i) := by
  intro s
  induction s with
  | nil => intro n i _ hi; simp at hi
  | cons a as ih =>
    intro n i hnd hi
    rw [List.nodup_cons] at hnd
    rcases i with _ | i
    · refine ⟨a, List.mem_cons_self _ _, ?_⟩
      unfold withIdx dict_get
      rw [if_pos rfl]
      congr 1
    · have hi' : i < as.length := by
        simp only [List.length_cons] at hi
        omega
      obtain ⟨c, hc, hg⟩ := ih (n + 1) i hnd.2 hi'
      have hca : ¬ c = a := fun h => hnd.1 (h ▸ hc)
      refine ⟨c, List.mem_cons_of_mem _ hc, ?_⟩
      unfold withIdx dict_get
      rw [if_neg hca, hg]
      congr 1
      omega

theorem dict_get_withIdx_inj {α : Type} [DecidableEq α] :
    ∀ (s : List α) (n : Nat) (c1 c2 : α) (i : Nat),
      dict_get (withIdx n s) c1 = some i → dict_get (withIdx n s) c2 = some i →
        c1 = c2 := by
  intro s
  induction s with
  | nil => intro n c1 c2 i h1 _; simp [withIdx, dict_get] at h1
  | cons a as ih =>
    intro n c1 c2 i h1 h2
    unfold withIdx dict_get at h1 h2
    by_cases hc1 : c1 = a <;> by_cases hc2 : c2 = a
    · rw [hc1, hc2]
    · rw [if_pos hc1] at h1
      rw [if_neg hc2] at h2
      injection h1 with h1
      have := dict_get_withIdx_bounds as (n + 1) c2 i h2
      omega
    · rw [if_neg hc1] at h1
      rw [if_pos hc2] at h2
      injection h2 with h2
      have := dict_get_withIdx_bounds as (n + 1) c1 i h1
      omega
    · rw [if_neg hc1] at h1
      rw [if_neg hc2] at h2
      exact ih (n + 1) c1 c2 i h1 h2

theorem mem_class_list {α : Type} [LinearOrder α] {df : List AnnRec}
    {col : AnnRec → α} {c : α} : c ∈ class_list df col ↔ c ∈ df.map col := by
  unfold class_list
  rw [(List.perm_insertionSort _ _).mem_iff, List.mem_dedup]

/-- C5: the class mapping built for a pipeline run sends the distinct
values of the label column of the processed training set, sorted
ascending, bijectively onto 0..k-1, and export_data builds that single
mapping from the training split and passes the identical mapping to the
evaluation split's export. -/
theorem C5_class_mapping {α : Type} [LinearOrder α] (col : AnnRec → α)
    (df_train_p df_test_p : List AnnRec) (trainFs testFs : Str → Bool) :
    List.Sorted (· ≤ ·) (class_list df_train_p col) ∧
    (class_list df_train_p col).Nodup ∧
    (class_list df_train_p col).length = (df_train_p.map col).toFinset.card ∧
    (∀ c ∈ df_train_p.map col, ∃ i,
      dict_get (create_class_mapping df_train_p col) c = some i ∧
        i < (class_list df_train_p col).length) ∧
    (∀ i < (class_list df_train_p col).length, ∃ c ∈ class_list df_train_p col,
      dict_get (create_class_mapping df_train_p col) c = some i) ∧
    (∀ c1 c2 i, dict_get (create_class_mapping df_train_p col) c1 = some i →
      dict_get (create_class_mapping df_train_p col) c2 = some i → c1 = c2) ∧
    export_data col df_train_p df_test_p trainFs testFs =
      (export_to_yolo trainFs (dict_get (create_class_mapping df_train_p col)) col
          df_train_p,
       export_to_yolo testFs (dict_get (create_class_mapping df_train_p col)) col
          df_test_p) := by
  refine ⟨List.sorted_insertionSort _ _,
    (List.perm_insertionSort _ _).nodup_iff.mpr (List.nodup_dedup _), ?_, ?_, ?_, ?_, rfl⟩
  · unfold class_list
    rw [(List.perm_insertionSort _ _).length_eq, List.card_toFinset]
  · intro c hc
    obtain ⟨i, hg, hb⟩ := dict_get_withIdx_mem (class_list df_train_p col) 0 c
      (mem_class_list.mpr hc)
    exact ⟨i, hg, by omega⟩
  · intro i hi
    obtain ⟨c, hc, hg⟩ := dict_get_withIdx_surj (class_list df_train_p col) 0 i
      ((List.perm_insertionSort _ _).nodup_iff.mpr (List.nodup_dedup _)) hi
    refine ⟨c, hc, ?_⟩
    show dict_get (withIdx 0 (class_list df_train_p col)) c = some i
    rw [hg]
    congr 1
    omega
  · intro c1 c2 i h1 h2
    exact dict_get_withIdx_inj (class_list df_train_p col) 0 c1 c2 i h1 h2

/-! ## Claim C6 -/

/-- C6: provided the on-disk images have positive dimensions (what PIL
reports for an existing image file) and the raw annotation dimensions are
non-negative (as in the dataset's CSVs), every record surviving the
validation stage (dimension repair followed by existence filtering) has
width > 0 and height > 0; equivalently, a record that would still have a
zero dimension after repair cannot be in the output, because repair fails
only when the image is missing, and such records are dropped by the
existence filter. -/
theorem C6_validated_dimensions_positive
    (store : Str → Option (Int × Int)) (df : List AnnRec)
    (hstore : ∀ f w h, store f = some (w, h) → 0 < w ∧ 0 < h)
    (hdf : ∀ r ∈ df, 0 ≤ r.width ∧ 0 ≤ r.height) :
    ∀ r ∈ validate_and_fix store df, 0 < r.width ∧ 0 < r.height := by
  intro r hr
  unfold validate_and_fix verify_files_exist fix_zero_dimensions at hr
  rw [List.mem_filter] at hr
  obtain ⟨hmem, hex⟩ := hr
  rw [List.mem_map] at hmem
  obtain ⟨r0, hr0, hmap⟩ := hmem
  by_cases hz : r0.width = 0 ∨ r0.height = 0
  · rw [if_pos hz] at hmap
    rcases hs : store r0.filename with _ | ⟨w, h⟩
    · rw [hs] at hmap
      subst hmap
      rw [hs] at hex
      simp at hex
    · rw [hs] at hmap
      subst hmap
      exact hstore _ _ _ hs
  · rw [if_neg hz] at hmap
    subst hmap
    push_neg at hz
    obtain ⟨hw, hh⟩ := hdf r0 hr0
    exact ⟨lt_of_le_of_ne hw (fun h => hz.1 h.symm), lt_of_le_of_ne hh (fun h => hz.2 h.symm)⟩

/-- Example image store for the C6 witness: a single existing image of
size 640 x 480. -/
def exStore : Str → Option (Int × Int) :=
  fun f => if f = chars "a.jpg" then some (640, 480) else none

/-- Example record for the C6 witness: zero dimensions to be repaired. -/
def exValRec : AnnRec := { filename := chars "a.jpg", cls := chars "c" }

/-- Witness for C6 at a concrete store and record. -/
theorem C6_validated_dimensions_positive_witness :
    0 < ({ exValRec with width := 640, height := 480 } : AnnRec).width ∧
    0 < ({ exValRec with width := 640, height := 480 } : AnnRec).height :=
  C6_validated_dimensions_positive exStore [exValRec]
    (fun f w h hf => by
      unfold exStore at hf
      by_cases hc : f = chars "a.jpg"
      · rw [if_pos hc] at hf
        injection hf with hwh
        injection hwh with hw hh
        omega
      · rw [if_neg hc] at hf
        exact absurd hf (by simp))
    (by decide)
    { exValRec with width := 640, height := 480 }
    (by decide)

/-! ## Claim C9 -/

/-- C9: the bounding-box conversion computes
cx = (xmin+xmax)/2/width, cy = (ymin+ymax)/2/height,
w = (xmax-xmin)/width, h = (ymax-ymin)/height, and on the record
xmin=10, xmax=50, ymin=20, ymax=80, width=100, height=200 yields exactly
cx = 0.30, cy = 0.25, w = 0.40, h = 0.30, all within the interval
from 0 to 1. -/
theorem C9_convert_bbox_round_trip :
    (∀ r : AnnRec, convert_bbox_to_yolo r =
      (((r.xmin : ℚ) + (r.xmax : ℚ)) / 2 / (r.width : ℚ),
       ((r.ymin : ℚ) + (r.ymax : ℚ)) / 2 / (r.height : ℚ),
       ((r.xmax : ℚ) - (r.xmin : ℚ)) / (r.width : ℚ),
       ((r.ymax : ℚ) - (r.ymin : ℚ)) / (r.height : ℚ))) ∧
    convert_bbox_to_yolo
      { filename := chars "a.jpg", cls := chars "c", xmin := 10, ymin := 20,
        xmax := 50, ymax := 80, width := 100, height := 200 } =
      (3/10, 1/4, 2/5, 3/10) ∧
    ((0 : ℚ) ≤ 3/10 ∧ (3/10 : ℚ) ≤ 1) ∧ ((0 : ℚ) ≤ 1/4 ∧ (1/4 : ℚ) ≤ 1) ∧
    ((0 : ℚ) ≤ 2/5 ∧ (2/5 : ℚ) ≤ 1) := by
  refine ⟨fun r => rfl, ?_, by norm_num, by norm_num, by norm_num⟩
  unfold convert_bbox_to_yolo
  norm_num

end PlantDoc
